import Mathlib

/-!
A shallow embedding of the tabular streaming core of the `swissknife`
command-line toolkit: the header-detecting table iterator, the
index-specification parser, the statistical aggregators, the two aggregation
modes of `aggregate.py`, and the grouping engine of `groupby.py`, together
with theorems settling the specification claims.

Modelling conventions:
* Python floats are modelled as exact rationals (`ℚ`); every numeric input
  appearing in this development is a small decimal literal on which float
  arithmetic is exact.
* Python strings are modelled as `List Char`.
* A Python exception (`ValueError`, `IndexError`, `UnboundLocalError`) is
  modelled as `Except.error ()`; a Python `None` result as `Option.none`.
* Delimiters are modelled as single characters: every delimiter used by the
  tools in this development is a single character (the default is `"\t"`).
-/

attribute [local semireducible] Rat.add Rat.mul Rat.sub Rat.inv

namespace Swissknife

/-- Decidable equality for `Except`, so that concrete runs of the modelled
code can be checked by `decide`. -/
instance {ε α : Type} [DecidableEq ε] [DecidableEq α] :
    DecidableEq (Except ε α) := fun x y =>
  match x, y with
  | .error a, .error b =>
    if h : a = b then .isTrue (congrArg Except.error h)
    else .isFalse (fun hh => h (Except.error.inj hh))
  | .ok a, .ok b =>
    if h : a = b then .isTrue (congrArg Except.ok h)
    else .isFalse (fun hh => h (Except.ok.inj hh))
  | .error _, .ok _ => .isFalse (fun hh => Except.noConfusion hh)
  | .ok _, .error _ => .isFalse (fun hh => Except.noConfusion hh)

/-- The characters Python's `str.strip()` / `str.split(None)` treat as
whitespace (ASCII subset; non-ASCII whitespace is outside the modelled
scope). -/
def pySpaceChars : List Char := [' ', '\t', '\n', '\r', '\x0b', '\x0c']

/-- Python `str.strip(chars)`: remove the characters of `cs` from both ends
of the string. -/
def stripChars (cs : List Char) (l : List Char) : List Char :=
  ((l.dropWhile (fun c => cs.contains c)).reverse.dropWhile
    (fun c => cs.contains c)).reverse

/-- Python `str.strip()` with no argument: strip ASCII whitespace. -/
def stripAll (l : List Char) : List Char := stripChars pySpaceChars l

/-- Python `str.split(sep)` for a one-character separator: split at every
occurrence of `sep`, keeping empty fields (`"".split(t)` is `[""]`). -/
def splitOnChar (sep : Char) : List Char → List (List Char)
  | [] => [[]]
  | c :: cs =>
    if c = sep then [] :: splitOnChar sep cs
    else
      match splitOnChar sep cs with
      | [] => [[c]]
      | r :: rs => (c :: r) :: rs

/-- Accumulator-passing worker for `splitWhitespace`. -/
def splitWhitespaceAux (cur : List Char) : List Char → List (List Char)
  | [] => if cur.isEmpty then [] else [cur.reverse]
  | c :: cs =>
    if pySpaceChars.contains c then
      if cur.isEmpty then splitWhitespaceAux [] cs
      else cur.reverse :: splitWhitespaceAux [] cs
    else splitWhitespaceAux (c :: cur) cs

/-- Python `str.split()` with no separator: split on runs of whitespace,
dropping empty fields (`"".split()` is `[]`). -/
def splitWhitespace (l : List Char) : List (List Char) := splitWhitespaceAux [] l

/-- Numeric value of a decimal digit character. -/
def digitVal (c : Char) : ℕ := c.toNat - 48

/-- Value of a string of decimal digits. -/
def digitsToNat (l : List Char) : ℕ := l.foldl (fun a c => 10 * a + digitVal c) 0

/-- Optional leading sign of a Python numeric literal. -/
def parseSign : List Char → ℤ × List Char
  | '+' :: rest => (1, rest)
  | '-' :: rest => (-1, rest)
  | l => (1, l)

/-- Model of Python `float(s)` on the decimal-literal fragment: optional
surrounding whitespace, an optional sign, decimal digits with an optional
fractional part, and an optional exponent.  (`inf`/`nan` spellings and
underscore digit separators are outside the modelled scope; no input in this
development uses them.)  Returns `none` where Python raises `ValueError`. -/
def pyFloat (s : List Char) : Option ℚ :=
  let t := stripAll s
  let sgn := parseSign t
  let ip := sgn.2.takeWhile Char.isDigit
  let t2 := sgn.2.dropWhile Char.isDigit
  let fpRest : List Char × List Char :=
    match t2 with
    | '.' :: rest => (rest.takeWhile Char.isDigit, rest.dropWhile Char.isDigit)
    | _ => ([], t2)
  let fp := fpRest.1
  if ip.isEmpty && fp.isEmpty then none
  else
    let mant : ℚ :=
      (sgn.1 : ℚ) * ((digitsToNat ip : ℚ) + (digitsToNat fp : ℚ) / (10 : ℚ) ^ fp.length)
    match fpRest.2 with
    | [] => some mant
    | c :: rest =>
      if c = 'e' ∨ c = 'E' then
        let esgn := parseSign rest
        let ed := esgn.2.takeWhile Char.isDigit
        let r2 := esgn.2.dropWhile Char.isDigit
        if ed.isEmpty || !r2.isEmpty then none
        else some (mant * (10 : ℚ) ^ (esgn.1 * (digitsToNat ed : ℤ)))
      else none

/-- Model of Python `int(s)`: optional surrounding whitespace, optional sign,
decimal digits only.  Returns `none` where Python raises `ValueError`. -/
def pyInt (s : List Char) : Option ℤ :=
  let t := stripAll s
  let sgn := parseSign t
  let ds := sgn.2.takeWhile Char.isDigit
  let rest := sgn.2.dropWhile Char.isDigit
  if ds.isEmpty || !rest.isEmpty then none
  else some (sgn.1 * (digitsToNat ds : ℤ))

/-- Python list indexing `l[i]`, with negative indices counting from the end;
`none` models the `IndexError` raised when the index is out of range. -/
def pyIndex {α : Type} (l : List α) (i : ℤ) : Option α :=
  let j := if i < 0 then i + l.length else i
  if h : 0 ≤ j ∧ j < l.length then some (l.get ⟨j.toNat, by omega⟩) else none

/-- `swissknife.utils.sublist`: `[l[i] for i in idxs]`; `none` models the
`IndexError` raised when some index is out of range for `l`. -/
def sublist {α : Type} (l : List α) : List ℤ → Option (List α)
  | [] => some []
  | i :: is =>
    match pyIndex l i, sublist l is with
    | some x, some xs => some (x :: xs)
    | _, _ => none

/-- `swissknife.utils.first`: the first element of the iterable; the loop body
never runs on an empty iterable, so Python falls off the function and returns
`None`, modelled as `Option.none`. -/
def first {α : Type} : List α → Option α
  | [] => none
  | x :: _ => some x

/-- `swissknife.utils.last`: the loop rebinds `result` on every element and
the function returns `result`; on an empty iterable `result` was never bound,
so Python raises `UnboundLocalError`, modelled as `Except.error`. -/
def last {α : Type} (l : List α) : Except Unit α :=
  match l.foldl (fun _ x => some x) (none : Option α) with
  | some x => .ok x
  | none => .error ()

/-- Python builtin `min` over a sequence of floats: raises `ValueError` on an
empty sequence, modelled as `Except.error`. -/
def pyMin : List ℚ → Except Unit ℚ
  | [] => .error ()
  | x :: xs => .ok (xs.foldl min x)

/-- Python builtin `max` over a sequence of floats: raises `ValueError` on an
empty sequence, modelled as `Except.error`. -/
def pyMax : List ℚ → Except Unit ℚ
  | [] => .error ()
  | x :: xs => .ok (xs.foldl max x)

/-- Python builtin `sum` over a sequence of floats (start value `0`). -/
def pySum (l : List ℚ) : ℚ := l.foldl (fun a x => a + x) 0

/-- `swissknife.utils.lenient_float`: like `float` but returns the default
value (`None` unless overridden) when the conversion raises. -/
def lenient_float (s : List Char) (dflt : Option ℚ) : Option ℚ :=
  match pyFloat s with
  | some v => some v
  | none => dflt

/-- `swissknife.utils.only_numbers`:
`not any(lenient_float(item) is None for item in iterable)`. -/
def only_numbers (l : List (List Char)) : Bool :=
  !(l.any (fun item => (lenient_float item none).isNone))

/-- `swissknife.utils.mean`: `0.0` for an empty sequence, otherwise
`sum(items) / len(items)`. -/
def mean (items : List ℚ) : ℚ :=
  if items.isEmpty then 0 else pySum items / (items.length : ℚ)

/-- `swissknife.utils.mean_sd`: the mean together with
`(sum((item - m) ** 2) / (len(items) - 1)) ** 0.5`, and `0.0` in place of the
standard deviation when fewer than two items are given.  The square root is
irrational in general, so the second component lives in `ℝ`. -/
noncomputable def mean_sd (items : List ℚ) : ℚ × ℝ :=
  let m := mean items
  if items.length < 2 then (m, 0)
  else
    let sqdiff : ℚ := pySum (items.map (fun item => (item - m) ^ 2))
    (m, Real.sqrt ((sqdiff : ℝ) / ((items.length : ℝ) - 1)))

/-- Python `range(lo, hi + 1)` as a list of integers; empty when `hi < lo`. -/
def pyRange (lo hi : ℤ) : List ℤ := (List.range (hi + 1 - lo).toNat).map (fun i => lo + i)

/-- Python `part.split("-", 1)`: the text before the first hyphen and the text
after it. -/
def splitFirstOn (sep : Char) : List Char → List Char × List Char
  | [] => ([], [])
  | c :: cs =>
    if c = sep then ([], cs)
    else
      let p := splitFirstOn sep cs
      (c :: p.1, p.2)

/-- One comma-separated token of an index specification, as handled by the
loop body of `swissknife.utils.parse_index_specification`: strip it; if it
contains a hyphen, convert both sides with `int` and expand
`range(lo, hi + 1)`; otherwise convert the whole token with `int`.  A failing
`int` conversion raises `ValueError`, modelled as `Except.error`. -/
def parseIndexPart (part : List Char) : Except Unit (List ℤ) :=
  let p := stripAll part
  if p.contains '-' then
    let ab := splitFirstOn '-' p
    match pyInt ab.1, pyInt ab.2 with
    | some lo, some hi => .ok (pyRange lo hi)
    | _, _ => .error ()
  else
    match pyInt p with
    | some n => .ok [n]
    | none => .error ()

/-- Worker for `parse_index_specification`: process the comma-separated
tokens left to right, extending the accumulated result, stopping at the first
failing token. -/
def parseIndexAux : List (List Char) → List ℤ → Except Unit (List ℤ)
  | [], acc => .ok acc
  | p :: ps, acc =>
    match parseIndexPart p with
    | .ok xs => parseIndexAux ps (acc ++ xs)
    | .error e => .error e

/-- `swissknife.utils.parse_index_specification`. -/
def parse_index_specification (spec : List Char) : Except Unit (List ℤ) :=
  parseIndexAux (splitOnChar ',' spec) []

/-! ### `swissknife.utils.TableWithHeaderIterator` -/

/-- A cell of a typed row yielded by `TableWithHeaderIterator`: either the raw
string kept for the first column in date mode, or the result of
`lenient_float` (with `none` standing for Python `None`). -/
inductive TWHCell : Type
  | str (s : List Char)
  | num (v : Option ℚ)
deriving DecidableEq

/-- Whether a cell is Python `None` (the `value is None` test of the header
heuristic; a raw date string is never `None`). -/
def TWHCell.isNoneVal : TWHCell → Bool
  | .num none => true
  | _ => false

/-- The constructor arguments of `TableWithHeaderIterator` that configure the
iteration (`fp` is passed separately as the list of input lines).
`first_column_is_date` is an attribute set after construction by `qplot`. -/
structure TWHConfig : Type where
  delimiter : Option Char
  every : ℤ
  fields : Option (List ℤ)
  strip : Bool
  first_column_is_date : Bool

/-- `TableWithHeaderIterator.__init__`: records the options, clamping `every`
to at least 1 (`max(1, int(every))`) and initialising
`first_column_is_date` to `False`. -/
def TWHInit (delimiter : Option Char) (every : ℤ) (fields : Option (List ℤ))
    (strip : Bool) : TWHConfig :=
  ⟨delimiter, max 1 every, fields, strip, false⟩

/-- The mutable iteration state of `TableWithHeaderIterator.__iter__`. -/
structure TWHState : Type where
  seen_header : Bool
  headers : Option (List (List Char))
  line_number : ℕ
deriving DecidableEq

/-- `chars_to_strip` of `__iter__`: all whitespace when `strip` is set,
otherwise only line terminators. -/
def twhStripSet (cfg : TWHConfig) : List Char :=
  if cfg.strip then [' ', '\t', '\r', '\n'] else ['\r', '\n']

/-- `line.strip(chars_to_strip).split(self.delimiter)`: `None` means
whitespace splitting. -/
def twhSplit (cfg : TWHConfig) (line : List Char) : List (List Char) :=
  match cfg.delimiter with
  | none => splitWhitespace (stripChars (twhStripSet cfg) line)
  | some d => splitOnChar d (stripChars (twhStripSet cfg) line)

/-- `if self.fields: parts = sublist(parts, self.fields)` — the guard is
Python-falsy for both `None` and the empty list, and the indices are used
as-is (callers pass 0-based positions). -/
def twhSelect (cfg : TWHConfig) (parts : List (List Char)) :
    Except Unit (List (List Char)) :=
  match cfg.fields with
  | some (i :: is) =>
    match sublist parts (i :: is) with
    | some p => .ok p
    | none => .error ()
  | _ => .ok parts

/-- The typed values of a row: every cell through `lenient_float`, except the
first one when `first_column_is_date` is set.  Only called on non-empty
`parts` (the iterator skips empty rows before this point). -/
def twhValues (cfg : TWHConfig) (parts : List (List Char)) : List TWHCell :=
  if !cfg.first_column_is_date then
    parts.map (fun num => .num (lenient_float num none))
  else
    match parts with
    | [] => []
    | p0 :: rest => .str p0 :: rest.map (fun num => .num (lenient_float num none))

/-- One line of the `__iter__` loop: split, project, skip empty rows, check
the header heuristic while `seen_header` is still false, and otherwise treat
the row as data, yielding it when the every-Nth filter keeps it.  Returns the
new state and the rows yielded for this line. -/
def twhStep (cfg : TWHConfig) (st : TWHState) (line : List Char) :
    Except Unit (TWHState × List (List TWHCell)) :=
  let parts0 := twhSplit cfg line
  match twhSelect cfg parts0 with
  | .error e => .error e
  | .ok parts =>
    if parts.isEmpty then .ok (st, [])
    else
      let values := twhValues cfg parts
      if !st.seen_header && values.any TWHCell.isNoneVal then
        .ok (⟨true, some parts, st.line_number⟩, [])
      else
        let keep := cfg.every ≤ 1 ∨ (st.line_number : ℤ) % cfg.every = 0
        .ok (⟨st.seen_header, st.headers, st.line_number + 1⟩,
             if keep then [values] else [])

/-- The `__iter__` loop over the remaining lines, threading the state. -/
def twhRunAux (cfg : TWHConfig) (st : TWHState) :
    List (List Char) → Except Unit (List (List TWHCell) × TWHState)
  | [] => .ok ([], st)
  | line :: rest =>
    match twhStep cfg st line with
    | .error e => .error e
    | .ok (st1, out) =>
      match twhRunAux cfg st1 rest with
      | .error e => .error e
      | .ok (outs, stF) => .ok (out ++ outs, stF)

/-- A full run of `TableWithHeaderIterator` over a stream of lines: the
yielded typed rows and the captured `headers` attribute. -/
def twhRun (cfg : TWHConfig) (lines : List (List Char)) :
    Except Unit (List (List TWHCell) × Option (List (List Char))) :=
  match twhRunAux cfg ⟨false, none, 0⟩ lines with
  | .error e => .error e
  | .ok (rows, st) => .ok (rows, st.headers)

/-! ### `swissknife.scripts.aggregate` -/

/-- The command-line options consumed by the aggregation engine.  An empty
`fields` list models the default `[]` (no column selection; the engine guards
with Python truthiness). -/
structure AggOptions : Type where
  in_delimiter : Char
  out_delimiter : Char
  fields : List ℤ
  strip : Bool

/-- The value returned by one application of an aggregator function: a float,
or a tuple of floats for the multi-valued aggregators. -/
inductive AggValue : Type
  | scalar (x : ℚ)
  | tuple (xs : List ℚ)

/-- An aggregator as `aggregate.py` uses it: the callable together with the
optional `argout` suffix metadata attached to some of the functions.
`apply` is total: the engine only ever calls the aggregator on the
accumulated sequences, and every aggregator used in this development is total
on those. -/
structure PyAggregator : Type where
  apply : List ℚ → AggValue
  argout : Option (List (List Char))

/-- `flatten(...)` / the `__iter__` probe, specialised to the shapes the
aggregator functions return: a float contributes itself, a tuple its
elements. -/
def AggValue.flat : AggValue → List ℚ
  | .scalar x => [x]
  | .tuple xs => xs

/-- The `sum` entry of the `functions` table (Python builtin `sum`, no
`argout`). -/
def sumAgg : PyAggregator := ⟨fun items => .scalar (pySum items), none⟩

/-- The `mean` entry of the `functions` table (`utils.mean`, no `argout`). -/
def meanAgg : PyAggregator := ⟨fun items => .scalar (mean items), none⟩

/-- Shared split-strip-project step used by both aggregation modes and the
grouping engine: strip the configured character set, split on the input
delimiter, and, when a (1-based) field selection is configured, project to
`[f - 1 for f in fields]` via `sublist`. -/
def selectSplit (delim : Char) (stripSet : List Char) (fields : List ℤ)
    (line : List Char) : Except Unit (List (List Char)) :=
  let parts := splitOnChar delim (stripChars stripSet line)
  match fields.map (fun f => f - 1) with
  | [] => .ok parts
  | i :: is =>
    match sublist parts (i :: is) with
    | some p => .ok p
    | none => .error ()

/-- `chars_to_strip` of `process_files_column_single`. -/
def aggStripSet (opts : AggOptions) : List Char :=
  if opts.strip then [' ', '\t', '\r', '\n'] else ['\r', '\n']

/-- Line splitting and column selection of `process_files_column_single`. -/
def aggSelect (opts : AggOptions) (line : List Char) :
    Except Unit (List (List Char)) :=
  selectSplit opts.in_delimiter (aggStripSet opts) opts.fields line

/-- Header-name expansion through `argout`:
`"%s_%s" % (header, arg) if arg else header` for every header and suffix; no
metadata leaves the names unchanged. -/
def expandHeaders (argout : Option (List (List Char)))
    (line : List (List Char)) : List (List Char) :=
  match argout with
  | none => line
  | some args =>
    (line.map (fun header =>
      args.map (fun arg => if arg.isEmpty then header else header ++ '_' :: arg))).flatten

/-- Python `delim.join(strs)` for a one-character output delimiter. -/
def joinWith (d : Char) : List (List Char) → List Char
  | [] => []
  | [s] => s
  | s :: rest => s ++ d :: joinWith d rest

/-- The accumulator-growth step of `process_files_column_single`: when the
current row is wider than the accumulator list, create the missing
accumulators — empty when no accumulator exists yet, otherwise pre-filled
with a single `0.0`. -/
def growResult (result : List (List ℚ)) (n : ℕ) : List (List ℚ) :=
  if result.length < n then
    let diff := n - result.length
    if result.isEmpty then List.replicate diff []
    else result ++ List.replicate diff [0]
  else result

/-- `for item, l in zip(line, result): l.append(item)`: append position-wise,
leaving accumulators beyond the row's width untouched. -/
def appendRow (result : List (List ℚ)) (line : List ℚ) : List (List ℚ) :=
  List.zipWith (fun l x => l ++ [x]) result line ++ result.drop line.length

/-- `float(x)`: the strict conversion used once data has started; raises
`ValueError` (modelled as `Except.error`) on a malformed cell. -/
def pyFloatStrict (s : List Char) : Except Unit ℚ :=
  match pyFloat s with
  | some v => .ok v
  | none => .error ()

/-- `[float(x) for x in line]`, propagating the first `ValueError`. -/
def mapFloatStrict : List (List Char) → Except Unit (List ℚ)
  | [] => .ok []
  | s :: rest =>
    match pyFloatStrict s, mapFloatStrict rest with
    | .ok v, .ok vs => .ok (v :: vs)
    | .error e, _ => .error e
    | _, .error e => .error e

/-- The loop state of `process_files_column_single`: the `data_started` flag,
the per-column accumulators, and the lines printed so far (the header). -/
structure ColState : Type where
  data_started : Bool
  result : List (List ℚ)
  output : List (List Char)
deriving DecidableEq

/-- One line of the loop of `process_files_column_single`: split and project;
while no data has been seen, a row failing `only_numbers` is the header
(printed only for the first file) and is skipped; every other row is
converted with strict `float`, the accumulators are grown if the row is
wider, and the values are appended position-wise. -/
def columnStep (func : PyAggregator) (opts : AggOptions) (first_file : Bool)
    (st : ColState) (rawLine : List Char) : Except Unit ColState :=
  match aggSelect opts rawLine with
  | .error e => .error e
  | .ok line =>
    if !st.data_started && !only_numbers line then
      if first_file then
        .ok ⟨st.data_started, st.result,
             st.output ++ [joinWith opts.out_delimiter (expandHeaders func.argout line)]⟩
      else .ok st
    else
      match mapFloatStrict line with
      | .error e => .error e
      | .ok nums =>
        .ok ⟨true, appendRow (growResult st.result nums.length) nums, st.output⟩

/-- The loop of `process_files_column_single` over all lines. -/
def columnRunAux (func : PyAggregator) (opts : AggOptions) (first_file : Bool) :
    ColState → List (List Char) → Except Unit ColState
  | st, [] => .ok st
  | st, l :: ls =>
    match columnStep func opts first_file st l with
    | .error e => .error e
    | .ok st1 => columnRunAux func opts first_file st1 ls

/-- The per-column accumulators left by the loop of
`process_files_column_single` (the `result` variable just before the final
print). -/
def columnAccums (func : PyAggregator) (opts : AggOptions) (first_file : Bool)
    (lines : List (List Char)) : Except Unit (List (List ℚ)) :=
  match columnRunAux func opts first_file ⟨false, [], []⟩ lines with
  | .error e => .error e
  | .ok st => .ok st.result

/-- Number of decimal digits needed after the point to write `q` exactly
(bounded search; `0` is only returned for integers on the values reachable
here). -/
def decExp (q : ℚ) : ℕ :=
  ((List.range 64).find? (fun k => (q * (10 : ℚ) ^ k).den = 1)).getD 0

/-- Model of Python `str` on a float value: sign, integer digits, a decimal
point, and the exact fractional digits (`"5.0"` for integral values).  Exact
for the decimal values arising in this development. -/
def pyFloatStr (q : ℚ) : List Char :=
  let k := decExp q
  if k = 0 then (toString q.num).toList ++ ['.', '0']
  else
    let n := (q * (10 : ℚ) ^ k).num
    let ds0 := (Nat.repr n.natAbs).toList
    let ds := if ds0.length ≤ k then List.replicate (k + 1 - ds0.length) '0' ++ ds0 else ds0
    (if n < 0 then ['-'] else []) ++ ds.take (ds.length - k) ++ '.' :: ds.drop (ds.length - k)

/-- `process_files_column_single`: the printed lines — any header line printed
along the way, then the single aggregated line
`join(map(str, flatten(func(items) for items in result)))`. -/
def process_files_column_single (func : PyAggregator) (opts : AggOptions)
    (first_file : Bool) (lines : List (List Char)) :
    Except Unit (List (List Char)) :=
  match columnRunAux func opts first_file ⟨false, [], []⟩ lines with
  | .error e => .error e
  | .ok st =>
    .ok (st.output ++
      [joinWith opts.out_delimiter
        ((st.result.map (fun items => (func.apply items).flat)).flatten.map pyFloatStr)])

/-- Python `zip(*seqs)` on materialised sequences: position-wise rounds,
truncated to the shortest sequence.  `dflt` is never selected (every index
stays below each length); it only keeps the lookup total. -/
def pyZip {α : Type} (dflt : α) (ls : List (List α)) : List (List α) :=
  match ls.map List.length with
  | [] => []
  | n :: ns =>
    (List.range (ns.foldl min n)).map (fun i => ls.map (fun l => l.getD i dflt))

/-- `[sublist(line, col_idxs) for line in lines]`, propagating `IndexError`. -/
def mapSublist (lss : List (List (List Char))) (idxs : List ℤ) :
    Except Unit (List (List (List Char))) :=
  match lss with
  | [] => .ok []
  | l :: ls =>
    match sublist l idxs with
    | some p =>
      match mapSublist ls idxs with
      | .ok ps => .ok (p :: ps)
      | .error e => .error e
    | none => .error ()

/-- `[[float(x) for x in line] for line in lines]`. -/
def mapMapFloatStrict : List (List (List Char)) → Except Unit (List (List ℚ)) :=
  fun lss =>
    match lss with
    | [] => .ok []
    | l :: ls =>
      match mapFloatStrict l, mapMapFloatStrict ls with
      | .ok v, .ok vs => .ok (v :: vs)
      | .error e, _ => .error e
      | _, .error e => .error e

/-- Line splitting and column selection of one round of
`process_files_multiple`: each line of the round is stripped with plain
`str.strip()`, split on the input delimiter, and, when a field selection is
configured, projected through `sublist`. -/
def multSelect (opts : AggOptions) (lines : List (List Char)) :
    Except Unit (List (List (List Char))) :=
  let split := lines.map (fun line => splitOnChar opts.in_delimiter (stripAll line))
  match opts.fields.map (fun f => f - 1) with
  | [] => Except.ok split
  | i :: is => mapSublist split (i :: is)

/-- One round (one line taken from each file) of `process_files_multiple`:
strip each line (plain `str.strip()`), split, project; while no data has been
seen, a round in which any row fails `only_numbers` is a joint header printed
from the first file; otherwise all rows are converted with strict `float` and
the aggregator is applied position-wise across the files
(`for items in zip(*lines)`), tuple results flattened into the output row. -/
def multStep (func : PyAggregator) (opts : AggOptions) (started : Bool)
    (lines : List (List Char)) : Except Unit (Bool × List (List Char)) :=
  match multSelect opts lines with
  | .error e => .error e
  | .ok sel =>
    if !started && sel.any (fun line => !only_numbers line) then
      .ok (started,
        [joinWith opts.out_delimiter (expandHeaders func.argout (sel.headD []))])
    else
      match mapMapFloatStrict sel with
      | .error e => .error e
      | .ok numss =>
        let row := (pyZip (0 : ℚ) numss).map (fun items =>
          match func.apply items with
          | .scalar x => [pyFloatStr x]
          | .tuple xs => xs.map pyFloatStr)
        .ok (true, [joinWith opts.out_delimiter row.flatten])

/-- The loop of `process_files_multiple` over the zipped rounds. -/
def multRunAux (func : PyAggregator) (opts : AggOptions) :
    Bool → List (List (List Char)) → Except Unit (List (List Char))
  | _, [] => .ok []
  | started, round :: rest =>
    match multStep func opts started round with
    | .error e => .error e
    | .ok (started1, out) =>
      match multRunAux func opts started1 rest with
      | .error e => .error e
      | .ok outs => .ok (out ++ outs)

/-- `process_files_multiple`: iterate all files in lock-step
(`zip(*files)` truncates to the shortest) and emit one output line per
round. -/
def process_files_multiple (func : PyAggregator) (opts : AggOptions)
    (files : List (List (List Char))) : Except Unit (List (List Char)) :=
  multRunAux func opts false (pyZip [] files)

/-! ### `swissknife.scripts.groupby` -/

/-- The command-line options of `groupby.py` after `main` resolved the output
delimiter.  An empty `fields` list models `None` (no selection; the code
guards with Python truthiness). -/
structure GroupOptions : Type where
  in_delimiter : Char
  out_delimiter : Char
  fields : List ℤ
  unique : Bool
  strip : Bool

/-- The grouping dictionary: keys in first-insertion order, each with its
accumulated values. -/
abbrev GroupMap := List (List Char × List (List Char))

/-- `bucket.update(vals)` for the `unique` policy: insert each value,
collapsing duplicates.  (CPython iterates sets in an unspecified order; this
model keeps first-insertion order, and no claim proved here depends on the
order of values inside a bucket.) -/
def dedupInsertAll (vs : List (List Char)) : List (List Char) → List (List Char)
  | [] => vs
  | x :: xs => dedupInsertAll (if vs.contains x then vs else vs ++ [x]) xs

/-- Add one row's values to its key's bucket: extend the bucket in place for
an existing key (keeping its position), append a fresh bucket for a new key
(`defaultdict` behaviour, dict insertion order). -/
def groupInsert (unique : Bool) : GroupMap → List Char → List (List Char) → GroupMap
  | [], key, vals => [(key, if unique then dedupInsertAll [] vals else vals)]
  | (k, vs) :: rest, key, vals =>
    if k = key then
      (k, if unique then dedupInsertAll vs vals else vs ++ vals) :: rest
    else (k, vs) :: groupInsert unique rest key vals

/-- `chars_to_strip` of `groupby.process_file`. -/
def groupStripSet (opts : GroupOptions) : List Char :=
  if opts.strip then [' ', '\t', '\r', '\n'] else ['\r', '\n']

/-- Line splitting and column selection of `groupby.process_file`. -/
def groupSelect (opts : GroupOptions) (line : List Char) :
    Except Unit (List (List Char)) :=
  selectSplit opts.in_delimiter (groupStripSet opts) opts.fields line

/-- The selected, non-empty rows of one grouping input (the loop of
`process_file` up to the `if not parts: continue` filter). -/
def groupRows (opts : GroupOptions) : List (List Char) → Except Unit (List (List (List Char)))
  | [] => .ok []
  | line :: rest =>
    match groupSelect opts line with
    | .error e => .error e
    | .ok parts =>
      match groupRows opts rest with
      | .error e => .error e
      | .ok rows => .ok (if parts.isEmpty then rows else parts :: rows)

/-- Fold the rows of one file into a grouping map: `parts[0]` is the key and
`parts[1:]` are the values. -/
def groupFold (unique : Bool) : GroupMap → List (List (List Char)) → GroupMap
  | m, [] => m
  | m, row :: rest => groupFold unique (groupInsert unique m (row.headD []) row.tail) rest

/-- `groupby.process_file`: build the grouping map of one file, starting from
a fresh empty dictionary, then print one line per key in first-insertion
order (`join(chain([key], values))`). -/
def process_file (opts : GroupOptions) (lines : List (List Char)) :
    Except Unit (List (List Char)) :=
  match groupRows opts lines with
  | .error e => .error e
  | .ok rows =>
    .ok ((groupFold opts.unique [] rows).map
      (fun e => joinWith opts.out_delimiter (e.1 :: e.2)))

/-- The loop of `groupby.main`: process the input files in order, one
complete `process_file` call per file. -/
def groupby_main (opts : GroupOptions) : List (List (List Char)) → Except Unit (List (List Char))
  | [] => .ok []
  | f :: fs =>
    match process_file opts f with
    | .error e => .error e
    | .ok out =>
      match groupby_main opts fs with
      | .error e => .error e
      | .ok outs => .ok (out ++ outs)

/-- The default option values of `aggregate.py`: tab delimiters, no field
selection, no stripping. -/
def defaultAggOptions : AggOptions := ⟨'\t', '\t', [], false⟩

/-- Default `groupby.py` options after delimiter resolution: tab delimiters,
no field selection, duplicates kept, no stripping. -/
def defaultGroupOptions : GroupOptions := ⟨'\t', '\t', [], false, false⟩

/-- Comparator following the claim's words (for C9): the same
header-detecting state machine with the every-Nth-row filter removed — every
row reaching the data state is yielded.  This definition follows the claim,
not the source, and is used only for the refinement comparison. -/
def twhStepKeepAll (cfg : TWHConfig) (st : TWHState) (line : List Char) :
    Except Unit (TWHState × List (List TWHCell)) :=
  let parts0 := twhSplit cfg line
  match twhSelect cfg parts0 with
  | .error e => .error e
  | .ok parts =>
    if parts.isEmpty then .ok (st, [])
    else
      let values := twhValues cfg parts
      if !st.seen_header && values.any TWHCell.isNoneVal then
        .ok (⟨true, some parts, st.line_number⟩, [])
      else
        .ok (⟨st.seen_header, st.headers, st.line_number + 1⟩, [values])

/-- The loop of the keep-all comparator. -/
def twhRunKeepAllAux (cfg : TWHConfig) (st : TWHState) :
    List (List Char) → Except Unit (List (List TWHCell) × TWHState)
  | [] => .ok ([], st)
  | line :: rest =>
    match twhStepKeepAll cfg st line with
    | .error e => .error e
    | .ok (st1, out) =>
      match twhRunKeepAllAux cfg st1 rest with
      | .error e => .error e
      | .ok (outs, stF) => .ok (out ++ outs, stF)

/-- A full run of the keep-all comparator. -/
def twhRunKeepAll (cfg : TWHConfig) (lines : List (List Char)) :
    Except Unit (List (List TWHCell) × Option (List (List Char))) :=
  match twhRunKeepAllAux cfg ⟨false, none, 0⟩ lines with
  | .error e => .error e
  | .ok (rows, st) => .ok (rows, st.headers)

/-! ## Theorems about the claims -/

/-- C1: the claim is violated by the code.  On the stream
`"1\n", "a\n", "2\n"` the first line is fully numeric and is emitted as a
data row, but `__iter__` does not set `seen_header` in that case, so the
later line `"a"` is still classified and captured as the header (and
swallowed) after data has already been emitted.  The spec's transition to a
terminal `STREAMING_DATA` state on a fully-numeric row is missing from the
code. -/
theorem C1_header_captured_after_data :
    twhRun (TWHInit (some '\t') 1 none false) [['1', '\n'], ['a', '\n'], ['2', '\n']]
      = .ok ([[.num (some 1)], [.num (some 2)]], some [['a']]) := by decide

/-- C5, counterexample: `last` on an empty sequence does not return an
explicit absence value — it raises (`UnboundLocalError`), and the builtins
`min`/`max` likewise raise `ValueError`. -/
theorem C5_empty_raises :
    last ([] : List ℚ) = .error () ∧ pyMin [] = .error () ∧ pyMax [] = .error () := by
  decide

/-- C5, amended: on an empty sequence only `first` returns the explicit
absence value (Python `None`); `last` raises `UnboundLocalError`, and `min`
and `max` raise `ValueError`. -/
theorem C5_empty_behaviour :
    first ([] : List ℚ) = none ∧ last ([] : List ℚ) = .error () ∧
      pyMin [] = .error () ∧ pyMax [] = .error () := by decide

/-- C8, counterexample: multiple-mode aggregation of the two single-column
files `1,2,3` and `4,5,6` with `sum` does not print the lines
`"5"`, `"7"`, `"9"` — Python's `str` of a float keeps a decimal part. -/
theorem C8_output_not_integer_strings :
    process_files_multiple sumAgg defaultAggOptions
        [[['1', '\n'], ['2', '\n'], ['3', '\n']], [['4', '\n'], ['5', '\n'], ['6', '\n']]]
      ≠ .ok [['5'], ['7'], ['9']] := by decide

/-- C8, amended: multiple-mode aggregation of the two single-column files
`1,2,3` and `4,5,6` with `sum` outputs exactly the three lines `"5.0"`,
`"7.0"`, `"9.0"` — the position-wise sums across files, one output line per
input line-group, rendered through `str` of a float. -/
theorem C8_sum_multiple_mode :
    process_files_multiple sumAgg defaultAggOptions
        [[['1', '\n'], ['2', '\n'], ['3', '\n']], [['4', '\n'], ['5', '\n'], ['6', '\n']]]
      = .ok [['5', '.', '0'], ['7', '.', '0'], ['9', '.', '0']] := by decide

/-- C3, counterexample: on the rows `1`, `2`, `3<TAB>4` the accumulator
created for the new second column is seeded with a single `0.0`, not
back-filled for both prior rows, so the final accumulators `[1,2,3]` and
`[0,4]` do not have equal length. -/
theorem C3_accumulators_unequal_length :
    columnAccums meanAgg defaultAggOptions true
        [['1', '\n'], ['2', '\n'], ['3', '\t', '4', '\n']]
      = .ok [[1, 2, 3], [0, 4]] ∧
      ([0, 4] : List ℚ).length ≠ ([1, 2, 3] : List ℚ).length := by decide

/-- Zipping the append step against freshly created accumulators: each new
accumulator `[0]` receives exactly its value from the current row. -/
theorem zipWith_append_replicate_zero (xs : List ℚ) (n : ℕ) (h : xs.length = n) :
    List.zipWith (fun l x => l ++ [x]) (List.replicate n ([0] : List ℚ)) xs
      = xs.map (fun x => [0, x]) := by
  induction xs generalizing n with
  | nil => subst h; simp
  | cons x xs ih =>
    subst h
    simp [List.replicate_succ, ih xs.length rfl]

/-- C3, amended: when a later row is wider than the accumulator list and the
list is non-empty, the engine extends it with new accumulators each seeded
with a single `0.0` (one back-filled position, regardless of how many rows
came before), and the row's values are appended position-wise, so each newly
created accumulator ends this step as `[0, x]`.  Equal accumulator lengths
therefore hold only when the growth happens at the second data row. -/
theorem C3_growth_seeds_single_zero (result : List (List ℚ)) (t d : List ℚ)
    (hne : result ≠ []) (ht : t.length = result.length) (hd : d ≠ []) :
    appendRow (growResult result (t ++ d).length) (t ++ d)
      = List.zipWith (fun l x => l ++ [x]) result t ++ d.map (fun x => [0, x]) := by
  have hres : result.isEmpty = false := by
    cases result with
    | nil => exact absurd rfl hne
    | cons a l => rfl
  have hdlen : 1 ≤ d.length := by
    cases d with
    | nil => exact absurd rfl hd
    | cons a l => simp
  have hlt : result.length < (t ++ d).length := by
    simp only [List.length_append]
    omega
  have hrep : (t ++ d).length - result.length = d.length := by
    simp only [List.length_append]
    omega
  simp only [growResult, appendRow]
  rw [if_pos hlt, hres]
  simp only [Bool.false_eq_true, if_false, hrep]
  rw [List.zipWith_append _ result _ t d ht.symm]
  rw [zipWith_append_replicate_zero d d.length rfl]
  rw [List.drop_eq_nil_of_le
        (by simp only [List.length_append, List.length_replicate]; omega)]
  simp

/-- Witness for `C3_growth_seeds_single_zero` at the accumulators `[[1,2]]`
and the wider row `[3] ++ [4]`. -/
theorem C3_growth_seeds_single_zero_witness :
    appendRow (growResult [[1, 2]] (([(3 : ℚ)] ++ [4]).length)) ([3] ++ [4])
      = [[1, 2, 3], [0, 4]] := by
  rw [C3_growth_seeds_single_zero [[1, 2]] [3] [4] (by decide) (by decide) (by decide)]
  decide

/-- Fail-fast of the index-specification loop: as soon as some token fails,
the whole parse fails. -/
theorem parseIndexAux_error (ts : List (List Char)) (acc : List ℤ)
    (h : ∃ t ∈ ts, parseIndexPart t = .error ()) :
    parseIndexAux ts acc = .error () := by
  induction ts generalizing acc with
  | nil => simp at h
  | cons p ps ih =>
    obtain ⟨t, hmem, herr⟩ := h
    simp only [List.mem_cons] at hmem
    cases hmem with
    | inl heq => subst heq; simp [parseIndexAux, herr]
    | inr hmem =>
      cases hp : parseIndexPart p with
      | error e => cases e; simp [parseIndexAux, hp]
      | ok xs =>
        simp only [parseIndexAux, hp]
        exact ih _ ⟨t, hmem, herr⟩

/-- Splitting a string that does not contain the separator yields the string
as the single token. -/
theorem splitOnChar_of_not_contains (sep : Char) (l : List Char)
    (h : l.contains sep = false) : splitOnChar sep l = [l] := by
  induction l with
  | nil => rfl
  | cons c cs ih =>
    simp only [List.contains_cons, Bool.or_eq_false_iff, beq_eq_false_iff_ne, ne_eq] at h
    have h1 : ¬ c = sep := fun he => h.1 he.symm
    simp [splitOnChar, h1, ih h.2]

/-- `split("-", 1)` around the first hyphen. -/
theorem splitFirstOn_append (a b : List Char) (h : a.contains '-' = false) :
    splitFirstOn '-' (a ++ '-' :: b) = (a, b) := by
  induction a with
  | nil => simp [splitFirstOn]
  | cons c cs ih =>
    simp only [List.contains_cons, Bool.or_eq_false_iff, beq_eq_false_iff_ne, ne_eq] at h
    have h1 : ¬ c = '-' := fun he => h.1 he.symm
    simp [splitFirstOn, h1, ih h.2]

/-- A list containing the element reports containing it. -/
theorem contains_append_cons (a b : List Char) (c : Char) :
    (a ++ c :: b).contains c = true := by
  induction a with
  | nil => simp [List.contains_cons]
  | cons x xs ih => simp [List.contains_cons, ih]

/-- `range(lo, hi + 1)` is empty when `hi < lo`. -/
theorem pyRange_empty (lo hi : ℤ) (h : hi < lo) : pyRange lo hi = [] := by
  simp [pyRange, Int.toNat_of_nonpos (by omega : hi + 1 - lo ≤ 0)]

/-- C7, counterexample: a range token with lo > hi does not make the parser
error — `"5-3"` parses successfully to the empty index sequence. -/
theorem C7_lo_gt_hi_not_an_error :
    parse_index_specification ['5', '-', '3'] = .ok [] := by decide

/-- C7, amended: the parser fails fast when any comma-separated token is
invalid (a failing `int` conversion raises), but a well-formed range token
with lo > hi does not error: its `range(lo, hi + 1)` expansion is empty, so
the parse succeeds and the token contributes an empty sub-sequence. -/
theorem C7_index_specification_behaviour :
    (∀ spec t, t ∈ splitOnChar ',' spec → parseIndexPart t = .error () →
        parse_index_specification spec = .error ())
    ∧ (∀ t a b lo hi, stripAll t = a ++ '-' :: b → a.contains '-' = false →
        t.contains ',' = false → pyInt a = some lo → pyInt b = some hi → hi < lo →
        parse_index_specification t = .ok []) := by
  constructor
  · intro spec t hmem herr
    exact parseIndexAux_error _ _ ⟨t, hmem, herr⟩
  · intro t a b lo hi hstrip hnha hnc hla hlb hlt
    have hpart : parseIndexPart t = .ok [] := by
      simp only [parseIndexPart, hstrip, contains_append_cons, if_true]
      rw [splitFirstOn_append a b hnha]
      simp [hla, hlb, pyRange_empty lo hi hlt]
    simp [parse_index_specification, splitOnChar_of_not_contains ',' t hnc,
          parseIndexAux, hpart]

/-- Witness for `C7_index_specification_behaviour`: the token `"x"` makes the
parse fail, and the lo > hi range `"5-3"` parses to the empty sequence. -/
theorem C7_index_specification_witness :
    parse_index_specification ['x'] = .error () ∧
      parse_index_specification ['5', '-', '3'] = .ok [] :=
  ⟨C7_index_specification_behaviour.1 ['x'] ['x'] (by decide) (by decide),
   C7_index_specification_behaviour.2 ['5', '-', '3'] ['5'] ['3'] 5 3 (by decide)
     (by decide) (by decide) (by decide) (by decide) (by decide)⟩

/-- The modelled Python `sum` agrees with Mathlib's list sum. -/
theorem foldl_add_acc (l : List ℚ) (a : ℚ) :
    l.foldl (fun x y => x + y) a = a + l.sum := by
  induction l generalizing a with
  | nil => simp
  | cons x xs ih => simp [List.foldl_cons, ih, List.sum_cons]; ring

/-- `pySum` is the list sum. -/
theorem pySum_eq_sum (l : List ℚ) : pySum l = l.sum := by
  simp [pySum, foldl_add_acc]

/-- C6: `mean` computes the arithmetic mean and returns exactly 0.0 on the
empty sequence; `mean_sd` pairs the mean with the sample standard deviation
(N−1 divisor: its square times N−1 recovers the sum of squared deviations
from the mean, and it is non-negative), and for sequences of length < 2 the
standard-deviation component is 0.0. -/
theorem C6_mean_and_mean_sd :
    (mean ([] : List ℚ) = 0)
    ∧ (∀ items : List ℚ, items ≠ [] → (items.length : ℚ) * mean items = items.sum)
    ∧ (∀ items : List ℚ, (mean_sd items).1 = mean items)
    ∧ (∀ items : List ℚ, items.length < 2 → (mean_sd items).2 = 0)
    ∧ (∀ items : List ℚ, 2 ≤ items.length →
        0 ≤ (mean_sd items).2 ∧
        ((mean_sd items).2) ^ 2 * ((items.length : ℝ) - 1)
          = (((items.map (fun x => (x - mean items) ^ 2)).sum : ℚ) : ℝ)) := by
  refine ⟨rfl, ?_, ?_, ?_, ?_⟩
  · intro items hne
    have hemp : items.isEmpty = false := by
      cases items with
      | nil => exact absurd rfl hne
      | cons a l => rfl
    have hlen : (items.length : ℚ) ≠ 0 := by
      have : items.length ≠ 0 := by
        cases items with
        | nil => exact absurd rfl hne
        | cons a l => simp
      exact_mod_cast this
    simp only [mean, hemp, Bool.false_eq_true, if_false, pySum_eq_sum]
    field_simp
  · intro items
    unfold mean_sd
    by_cases h : items.length < 2
    · simp [h]
    · simp [h]
  · intro items h
    simp [mean_sd, h]
  · intro items h
    have h2 : ¬ items.length < 2 := not_lt.mpr h
    have hlenR : (2 : ℝ) ≤ (items.length : ℝ) := by exact_mod_cast h
    have hden : (0 : ℝ) < (items.length : ℝ) - 1 := by linarith
    have hsq : (0 : ℚ) ≤ pySum (items.map (fun item => (item - mean items) ^ 2)) := by
      rw [pySum_eq_sum]
      apply List.sum_nonneg
      intro x hx
      obtain ⟨y, _, rfl⟩ := List.mem_map.mp hx
      positivity
    have harg : (0 : ℝ) ≤
        ((pySum (items.map (fun item => (item - mean items) ^ 2)) : ℚ) : ℝ)
          / ((items.length : ℝ) - 1) := by
      apply div_nonneg _ (le_of_lt hden)
      exact_mod_cast hsq
    constructor
    · simp only [mean_sd, h2, Bool.false_eq_true, if_false]
      exact Real.sqrt_nonneg _
    · simp only [mean_sd, h2, Bool.false_eq_true, if_false]
      rw [Real.sq_sqrt harg, div_mul_cancel₀ _ (ne_of_gt hden), pySum_eq_sum]

/-- Witness for `C6_mean_and_mean_sd` at the sequences `[5,3,7,1,9]` (mean 5,
squared deviations summing to 40 over N−1 = 4) and `[5]` (standard deviation
0). -/
theorem C6_mean_and_mean_sd_witness :
    (mean_sd [(5 : ℚ), 3, 7, 1, 9]).1 = 5 ∧
      ((mean_sd [(5 : ℚ), 3, 7, 1, 9]).2) ^ 2 * 4 = 40 ∧
      (mean_sd [(5 : ℚ)]).2 = 0 := by
  obtain ⟨h0, hmul, hfst, hlt, hge⟩ := C6_mean_and_mean_sd
  refine ⟨?_, ?_, ?_⟩
  · rw [hfst]; decide
  · have h5 := (hge [5, 3, 7, 1, 9] (by decide)).2
    have hm : mean [(5 : ℚ), 3, 7, 1, 9] = 5 := by decide
    rw [hm] at h5
    have hlen : (([(5 : ℚ), 3, 7, 1, 9].length : ℝ)) - 1 = 4 := by norm_num
    have hsum : (([(5 : ℚ), 3, 7, 1, 9].map (fun x => (x - 5) ^ 2)).sum : ℚ) = 40 := by
      norm_num
    rw [hlen, hsum] at h5
    rw [h5]
    norm_num
  · exact hlt [5] (by decide)

/-- `lenient_float` with the default `None` is exactly `pyFloat`. -/
theorem lenient_float_none (s : List Char) : lenient_float s none = pyFloat s := by
  unfold lenient_float
  cases pyFloat s <;> rfl

/-- On a row passing `only_numbers`, the strict conversion succeeds. -/
theorem mapFloatStrict_ok (l : List (List Char)) (h : only_numbers l = true) :
    ∃ vs, mapFloatStrict l = .ok vs := by
  induction l with
  | nil => exact ⟨[], rfl⟩
  | cons s rest ih =>
    simp only [only_numbers, List.any_cons, Bool.not_eq_true', Bool.or_eq_false_iff,
      lenient_float_none] at h
    obtain ⟨vs, hvs⟩ := ih (by
      simp only [only_numbers, Bool.not_eq_true', lenient_float_none, h.2])
    cases hv : pyFloat s with
    | none => rw [hv] at h; simp at h
    | some v =>
      refine ⟨v :: vs, ?_⟩
      simp [mapFloatStrict, pyFloatStrict, hv, hvs]

/-- On a row failing `only_numbers`, the strict conversion raises. -/
theorem mapFloatStrict_error (l : List (List Char)) (h : only_numbers l = false) :
    mapFloatStrict l = .error () := by
  induction l with
  | nil => simp [only_numbers] at h
  | cons s rest ih =>
    simp only [only_numbers, List.any_cons, Bool.not_eq_false', Bool.or_eq_true,
      lenient_float_none] at h
    cases hv : pyFloat s with
    | none => simp [mapFloatStrict, pyFloatStrict, hv]
    | some v =>
      have hrest : only_numbers rest = false := by
        rw [hv] at h
        simp only [Option.isNone_some] at h
        simp only [only_numbers, Bool.not_eq_false', lenient_float_none]
        exact h.resolve_left (by simp)
      simp [mapFloatStrict, pyFloatStrict, hv, ih hrest]

/-- Splitting a run of the column-mode loop at a concatenation point. -/
theorem columnRunAux_append (f : PyAggregator) (o : AggOptions) (ff : Bool)
    (st : ColState) (xs ys : List (List Char)) :
    columnRunAux f o ff st (xs ++ ys)
      = match columnRunAux f o ff st xs with
        | .error e => .error e
        | .ok st1 => columnRunAux f o ff st1 ys := by
  induction xs generalizing st with
  | nil => simp [columnRunAux]
  | cons l ls ih =>
    simp only [List.cons_append, columnRunAux]
    cases columnStep f o ff st l with
    | error e => rfl
    | ok st1 => exact ih st1

/-- While the rows keep failing `only_numbers` (the header phase), every step
succeeds and `data_started` stays false. -/
theorem columnRunAux_header_ok (f : PyAggregator) (o : AggOptions) (ff : Bool)
    (hs : List (List Char)) :
    ∀ st, st.data_started = false →
      (∀ l ∈ hs, ∃ sel, aggSelect o l = .ok sel ∧ only_numbers sel = false) →
      ∃ st1, columnRunAux f o ff st hs = .ok st1 ∧ st1.data_started = false := by
  induction hs with
  | nil => intro st hds _; exact ⟨st, rfl, hds⟩
  | cons l ls ih =>
    intro st hds h
    obtain ⟨sel, hsel, hnum⟩ := h l (List.mem_cons_self l ls)
    have hcond : (!st.data_started && !only_numbers sel) = true := by
      rw [hds, hnum]; rfl
    have hstep : ∃ st1, columnStep f o ff st l = .ok st1 ∧ st1.data_started = false := by
      simp only [columnStep, hsel, hcond, if_true]
      by_cases hf : ff
      · refine ⟨⟨st.data_started, st.result,
          st.output ++ [joinWith o.out_delimiter (expandHeaders f.argout sel)]⟩, ?_, hds⟩
        rw [if_pos hf]
      · exact ⟨st, by rw [if_neg hf], hds⟩
    obtain ⟨st1, hstep, hds1⟩ := hstep
    simp only [columnRunAux, hstep]
    exact ih st1 hds1 (fun l' hl' => h l' (List.mem_cons_of_mem _ hl'))

/-- Once every remaining row passes `only_numbers`, every step succeeds
(regardless of the current state). -/
theorem columnRunAux_data_ok (f : PyAggregator) (o : AggOptions) (ff : Bool)
    (ds : List (List Char)) :
    ∀ st, (∀ l ∈ ds, ∃ sel, aggSelect o l = .ok sel ∧ only_numbers sel = true) →
      ∃ st2, columnRunAux f o ff st ds = .ok st2 := by
  induction ds with
  | nil => intro st _; exact ⟨st, rfl⟩
  | cons l ls ih =>
    intro st h
    obtain ⟨sel, hsel, hnum⟩ := h l (List.mem_cons_self l ls)
    obtain ⟨vs, hvs⟩ := mapFloatStrict_ok sel hnum
    have hstep : columnStep f o ff st l
        = .ok ⟨true, appendRow (growResult st.result vs.length) vs, st.output⟩ := by
      simp [columnStep, hsel, hnum, hvs]
    simp only [columnRunAux, hstep]
    exact ih _ (fun l' hl' => h l' (List.mem_cons_of_mem _ hl'))

/-- A header phase followed by a numeric phase runs to completion. -/
theorem columnRun_phases_ok (f : PyAggregator) (o : AggOptions) (ff : Bool)
    (hs ds : List (List Char))
    (hh : ∀ l ∈ hs, ∃ sel, aggSelect o l = .ok sel ∧ only_numbers sel = false)
    (hd : ∀ l ∈ ds, ∃ sel, aggSelect o l = .ok sel ∧ only_numbers sel = true) :
    ∃ st, columnRunAux f o ff ⟨false, [], []⟩ (hs ++ ds) = .ok st := by
  obtain ⟨st1, h1, hds1⟩ := columnRunAux_header_ok f o ff hs ⟨false, [], []⟩ rfl hh
  obtain ⟨st2, h2⟩ := columnRunAux_data_ok f o ff ds st1 hd
  rw [columnRunAux_append, h1]
  exact ⟨st2, h2⟩

/-- A round whose joint header check is negative consists of rows that all
pass `only_numbers`. -/
theorem only_numbers_of_any_false (sel : List (List (List Char)))
    (h : sel.any (fun line => !only_numbers line) = false) :
    ∀ line ∈ sel, only_numbers line = true := by
  intro line hline
  cases hob : only_numbers line with
  | true => rfl
  | false =>
    exfalso
    have htrue : sel.any (fun l => !only_numbers l) = true :=
      List.any_eq_true.mpr ⟨line, hline, by rw [hob]; rfl⟩
    rw [htrue] at h
    exact Bool.noConfusion h

/-- A round whose joint header check is positive contains a row failing
`only_numbers`. -/
theorem exists_not_numbers_of_any_true (sel : List (List (List Char)))
    (h : sel.any (fun line => !only_numbers line) = true) :
    ∃ line ∈ sel, only_numbers line = false := by
  obtain ⟨line, hline, hb⟩ := List.any_eq_true.mp h
  refine ⟨line, hline, ?_⟩
  revert hb
  cases only_numbers line <;> simp

/-- On a round of rows all passing `only_numbers`, the nested strict
conversion succeeds. -/
theorem mapMapFloatStrict_ok (sel : List (List (List Char)))
    (h : ∀ line ∈ sel, only_numbers line = true) :
    ∃ vss, mapMapFloatStrict sel = .ok vss := by
  induction sel with
  | nil => exact ⟨[], rfl⟩
  | cons l ls ih =>
    obtain ⟨v, hv⟩ := mapFloatStrict_ok l (h l (List.mem_cons_self l ls))
    obtain ⟨vs, hvs⟩ := ih (fun l' hl' => h l' (List.mem_cons_of_mem _ hl'))
    exact ⟨v :: vs, by simp [mapMapFloatStrict, hv, hvs]⟩

/-- On a round containing a row that fails `only_numbers`, the nested strict
conversion raises. -/
theorem mapMapFloatStrict_error (sel : List (List (List Char)))
    (h : ∃ line ∈ sel, only_numbers line = false) :
    mapMapFloatStrict sel = .error () := by
  induction sel with
  | nil => simp at h
  | cons l ls ih =>
    obtain ⟨t, hmem, hno⟩ := h
    simp only [List.mem_cons] at hmem
    cases hmem with
    | inl heq =>
      subst heq
      simp [mapMapFloatStrict, mapFloatStrict_error t hno]
    | inr hmem =>
      cases hl : mapFloatStrict l with
      | error e => cases e; simp [mapMapFloatStrict, hl]
      | ok v => simp [mapMapFloatStrict, hl, ih ⟨t, hmem, hno⟩]

/-- Once every remaining round passes the joint numeric check, every
multiple-mode step succeeds (whatever the `data_started` flag is). -/
theorem multRunAux_data_ok (func : PyAggregator) (opts : AggOptions)
    (ds : List (List (List Char))) :
    ∀ b : Bool,
      (∀ round ∈ ds, ∃ sel, multSelect opts round = .ok sel ∧
        sel.any (fun line => !only_numbers line) = false) →
      ∃ out, multRunAux func opts b ds = .ok out := by
  induction ds with
  | nil => intro b _; exact ⟨[], rfl⟩
  | cons round rest ih =>
    intro b h
    obtain ⟨sel, hsel, hany⟩ := h round (List.mem_cons_self round rest)
    obtain ⟨vss, hvss⟩ := mapMapFloatStrict_ok sel (only_numbers_of_any_false sel hany)
    have hcond : (!b && sel.any (fun line => !only_numbers line)) = false := by
      rw [hany]
      simp
    have hstep : ∃ o, multStep func opts b round = .ok (true, o) := by
      simp only [multStep, hsel, hcond, Bool.false_eq_true, if_false, hvss]
      exact ⟨_, rfl⟩
    obtain ⟨o, hstep⟩ := hstep
    simp only [multRunAux, hstep]
    obtain ⟨out, hout⟩ := ih true (fun r hr => h r (List.mem_cons_of_mem _ hr))
    rw [hout]
    exact ⟨o ++ out, rfl⟩

/-- Header-phase rounds (some row fails `only_numbers`) never advance the
`data_started` flag and never raise; after them, a tail of all-numeric rounds
runs to completion. -/
theorem multRunAux_phases_ok (func : PyAggregator) (opts : AggOptions)
    (ds : List (List (List Char)))
    (hd : ∀ round ∈ ds, ∃ sel, multSelect opts round = .ok sel ∧
      sel.any (fun line => !only_numbers line) = false) :
    ∀ hs : List (List (List Char)),
      (∀ round ∈ hs, ∃ sel, multSelect opts round = .ok sel ∧
        sel.any (fun line => !only_numbers line) = true) →
      ∃ out, multRunAux func opts false (hs ++ ds) = .ok out := by
  intro hs
  induction hs with
  | nil =>
    intro _
    exact multRunAux_data_ok func opts ds false hd
  | cons round rest ih =>
    intro hh
    obtain ⟨sel, hsel, hany⟩ := hh round (List.mem_cons_self round rest)
    have hcond : (!false && sel.any (fun line => !only_numbers line)) = true := by
      rw [hany]
      rfl
    have hstep : multStep func opts false round = .ok (false,
        [joinWith opts.out_delimiter (expandHeaders func.argout (sel.headD []))]) := by
      simp only [multStep, hsel, hcond, if_true]
    obtain ⟨out, hout⟩ := ih (fun r hr => hh r (List.mem_cons_of_mem _ hr))
    simp only [List.cons_append, multRunAux, hstep, List.append_eq]
    rw [hout]
    exact ⟨_, rfl⟩

/-- C2, counterexample: the stream `"1"`, `"x"` is fatal in both engine
modes — the first row starts the data phase and the malformed cell `"x"` of
the second row hits the strict `float` conversion, raising `ValueError` and
terminating the run instead of degrading to a `None` marker. -/
theorem C2_malformed_cell_fatal_after_data :
    process_files_column_single meanAgg defaultAggOptions true
        [['1', '\n'], ['x', '\n']] = .error ()
    ∧ process_files_multiple meanAgg defaultAggOptions
        [[['1', '\n'], ['x', '\n']]] = .error () := by decide

/-- C2, amended: in both engine modes, a cell that fails numeric conversion
is never fatal while the engine is still awaiting data — such a row (or, in
multiple mode, round) is classified via the lenient conversion inside
`only_numbers` as a header and skipped, and any stream consisting of
header-phase rows followed by fully-numeric rows processes to completion; but
once data has started, a row with a malformed cell raises through the strict
`float` conversion and terminates the run, again in both modes. -/
theorem C2_malformed_cell_behaviour (func : PyAggregator) (opts : AggOptions)
    (ff : Bool) :
    (∀ hs ds : List (List Char),
      (∀ l ∈ hs, ∃ sel, aggSelect opts l = .ok sel ∧ only_numbers sel = false) →
      (∀ l ∈ ds, ∃ sel, aggSelect opts l = .ok sel ∧ only_numbers sel = true) →
      ∃ out, process_files_column_single func opts ff (hs ++ ds) = .ok out)
    ∧ (∀ (st : ColState) (line : List Char) (sel : List (List Char)),
        st.data_started = true → aggSelect opts line = .ok sel →
        only_numbers sel = false → columnStep func opts ff st line = .error ())
    ∧ (∀ (files : List (List (List Char))) (hs ds : List (List (List Char))),
        pyZip [] files = hs ++ ds →
        (∀ round ∈ hs, ∃ sel, multSelect opts round = .ok sel ∧
          sel.any (fun line => !only_numbers line) = true) →
        (∀ round ∈ ds, ∃ sel, multSelect opts round = .ok sel ∧
          sel.any (fun line => !only_numbers line) = false) →
        ∃ out, process_files_multiple func opts files = .ok out)
    ∧ (∀ (lines : List (List Char)) (sel : List (List (List Char))),
        multSelect opts lines = .ok sel →
        sel.any (fun line => !only_numbers line) = true →
        multStep func opts true lines = .error ()) := by
  refine ⟨?_, ?_, ?_, ?_⟩
  · intro hs ds hh hd
    obtain ⟨st, hst⟩ := columnRun_phases_ok func opts ff hs ds hh hd
    exact ⟨st.output ++ [joinWith opts.out_delimiter
        ((st.result.map (fun items => (func.apply items).flat)).flatten.map pyFloatStr)],
      by simp only [process_files_column_single, hst]⟩
  · intro st line sel hds hsel hnum
    simp [columnStep, hsel, hds, hnum, mapFloatStrict_error sel hnum]
  · intro files hs ds hzip hh hd
    obtain ⟨out, hout⟩ := multRunAux_phases_ok func opts ds hd hs hh
    refine ⟨out, ?_⟩
    unfold process_files_multiple
    rw [hzip, hout]
  · intro lines sel hsel hany
    have herr := mapMapFloatStrict_error sel (exists_not_numbers_of_any_true sel hany)
    simp [multStep, hsel, herr]


/-- Witness for `C2_malformed_cell_behaviour`: in column mode the stream
`"a"`, `"1"` (a malformed cell during the header phase) processes
successfully and a step on the row `"x"` after data has started raises; in
multiple mode the two files `name/1` and `value/2` (a joint header round with
malformed cells, then a numeric round) process successfully and a step on the
round `"x"` after data has started raises. -/
theorem C2_malformed_cell_behaviour_witness :
    (∃ out, process_files_column_single meanAgg defaultAggOptions true
        [['a', '\n'], ['1', '\n']] = .ok out)
    ∧ columnStep meanAgg defaultAggOptions true ⟨true, [[1]], []⟩ ['x', '\n']
        = .error ()
    ∧ (∃ out, process_files_multiple meanAgg defaultAggOptions
        [[['n', 'a', 'm', 'e', '\n'], ['1', '\n']],
         [['v', 'a', 'l', 'u', 'e', '\n'], ['2', '\n']]] = .ok out)
    ∧ multStep meanAgg defaultAggOptions true [['x', '\n']] = .error () := by
  refine ⟨?_, ?_, ?_, ?_⟩
  · exact (C2_malformed_cell_behaviour meanAgg defaultAggOptions true).1
      [['a', '\n']] [['1', '\n']]
      (by intro l hl; simp only [List.mem_singleton] at hl; subst hl
          exact ⟨[['a']], by decide⟩)
      (by intro l hl; simp only [List.mem_singleton] at hl; subst hl
          exact ⟨[['1']], by decide⟩)
  · exact (C2_malformed_cell_behaviour meanAgg defaultAggOptions true).2.1
      ⟨true, [[1]], []⟩ ['x', '\n'] [['x']] rfl (by decide) (by decide)
  · exact (C2_malformed_cell_behaviour meanAgg defaultAggOptions true).2.2.1
      [[['n', 'a', 'm', 'e', '\n'], ['1', '\n']],
       [['v', 'a', 'l', 'u', 'e', '\n'], ['2', '\n']]]
      [[['n', 'a', 'm', 'e', '\n'], ['v', 'a', 'l', 'u', 'e', '\n']]]
      [[['1', '\n'], ['2', '\n']]]
      (by decide)
      (by intro round hr
          simp only [List.mem_singleton] at hr
          subst hr
          exact ⟨[[['n', 'a', 'm', 'e']], [['v', 'a', 'l', 'u', 'e']]], by decide⟩)
      (by intro round hr
          simp only [List.mem_singleton] at hr
          subst hr
          exact ⟨[[['1']], [['2']]], by decide⟩)
  · exact (C2_malformed_cell_behaviour meanAgg defaultAggOptions true).2.2.2
      [['x', '\n']] [[['x']]] (by decide) (by decide)

/-- C4, counterexample: with a column selection configured (`fields = [2]`),
the ragged stream `"1<TAB>2"`, `"3"` raises — the second row is shorter than
the selected index and `sublist` hits an `IndexError`. -/
theorem C4_selection_short_row_raises :
    process_files_column_single meanAgg ⟨'\t', '\t', [2], false⟩ true
        [['1', '\t', '2', '\n'], ['3', '\n']] = .error () := by decide

/-- C4, amended: ragged column-mode input never raises when no column
selection is configured (rows may have arbitrary, varying column counts, as
long as the cells themselves are numeric once data starts); but when a column
selection is configured, a row shorter than a selected index makes `sublist`
raise `IndexError`. -/
theorem C4_ragged_behaviour (func : PyAggregator) (opts : AggOptions) (ff : Bool)
    (hfields : opts.fields = []) :
    (∀ hs ds : List (List Char),
      (∀ l ∈ hs, only_numbers
          (splitOnChar opts.in_delimiter (stripChars (aggStripSet opts) l)) = false) →
      (∀ l ∈ ds, only_numbers
          (splitOnChar opts.in_delimiter (stripChars (aggStripSet opts) l)) = true) →
      ∃ out, process_files_column_single func opts ff (hs ++ ds) = .ok out)
    ∧ (∀ (parts : List (List Char)) (i : ℤ) (is : List ℤ),
        (parts.length : ℤ) ≤ i → sublist parts (i :: is) = none) := by
  constructor
  · intro hs ds hh hd
    have hsel : ∀ l, aggSelect opts l
        = .ok (splitOnChar opts.in_delimiter (stripChars (aggStripSet opts) l)) := by
      intro l
      simp [aggSelect, selectSplit, hfields]
    obtain ⟨st, hst⟩ := columnRun_phases_ok func opts ff hs ds
      (fun l hl => ⟨_, hsel l, hh l hl⟩)
      (fun l hl => ⟨_, hsel l, hd l hl⟩)
    exact ⟨st.output ++ [joinWith opts.out_delimiter
        ((st.result.map (fun items => (func.apply items).flat)).flatten.map pyFloatStr)],
      by simp only [process_files_column_single, hst]⟩
  · intro parts i is hle
    have h0 : ¬ i < 0 := by
      have hnn : (0 : ℤ) ≤ (parts.length : ℤ) := by positivity
      omega
    simp only [sublist, pyIndex]
    have hj : ¬ ((0 : ℤ) ≤ (if i < 0 then i + (parts.length : ℤ) else i)
        ∧ (if i < 0 then i + (parts.length : ℤ) else i) < (parts.length : ℤ)) := by
      rw [if_neg h0]
      omega
    rw [dif_neg hj]

/-- Witness for `C4_ragged_behaviour`: the ragged all-numeric stream `"1"`,
`"2<TAB>3"` with no selection processes successfully, and index 1 is out of
range for the one-column row `["1"]`. -/
theorem C4_ragged_behaviour_witness :
    (∃ out, process_files_column_single meanAgg defaultAggOptions true
        [['1', '\n'], ['2', '\t', '3', '\n']] = .ok out)
    ∧ sublist [['1']] ((1 : ℤ) :: []) = none := by
  constructor
  · exact (C4_ragged_behaviour meanAgg defaultAggOptions true rfl).1
      [] [['1', '\n'], ['2', '\t', '3', '\n']]
      (by intro l hl; simp at hl)
      (by intro l hl
          simp only [List.mem_cons, List.not_mem_nil, or_false] at hl
          rcases hl with h | h <;> subst h <;> decide)
  · exact (C4_ragged_behaviour meanAgg defaultAggOptions true rfl).2 [['1']] 1 []
      (by decide)

/-- With `every ≤ 1` the subsampling condition of a step is always true, so a
step of the iterator coincides with the keep-all comparator's step. -/
theorem twhStep_eq_keepAll (cfg : TWHConfig) (h : cfg.every ≤ 1)
    (st : TWHState) (line : List Char) :
    twhStep cfg st line = twhStepKeepAll cfg st line := by
  simp only [twhStep, twhStepKeepAll,
    if_pos (Or.inl h : cfg.every ≤ 1 ∨ (st.line_number : ℤ) % cfg.every = 0)]

/-- With `every ≤ 1` the whole run coincides with the keep-all run. -/
theorem twhRunAux_eq_keepAll (cfg : TWHConfig) (h : cfg.every ≤ 1)
    (lines : List (List Char)) :
    ∀ st, twhRunAux cfg st lines = twhRunKeepAllAux cfg st lines := by
  induction lines with
  | nil => intro st; rfl
  | cons l ls ih =>
    intro st
    simp only [twhRunAux, twhRunKeepAllAux, twhStep_eq_keepAll cfg h st l]
    cases twhStepKeepAll cfg st l with
    | error e => rfl
    | ok p => simp only [ih]

/-- C9: for every constructor argument `every ≤ 1` (including zero and
negative values) the header-detecting table iterator keeps every data row —
`__init__` clamps `every` with `max(1, ...)`, which makes the filter
condition `every <= 1` true at every data row, so the run is exactly the
keep-all comparator's run; subsampling is only effective for `every ≥ 2`. -/
theorem C9_every_le_one_keeps_all (delimiter : Option Char)
    (fields : Option (List ℤ)) (strip : Bool) (every : ℤ) (h : every ≤ 1)
    (lines : List (List Char)) :
    twhRun (TWHInit delimiter every fields strip) lines
      = twhRunKeepAll (TWHInit delimiter every fields strip) lines := by
  have hev : (TWHInit delimiter every fields strip).every ≤ 1 :=
    max_le_iff.mpr ⟨le_refl 1, h⟩
  unfold twhRun twhRunKeepAll
  rw [twhRunAux_eq_keepAll _ hev]

/-- Witness for `C9_every_le_one_keeps_all`: with `every = 0` the iterator
run over `1`, `2`, `3` equals the keep-all run, which yields all three data
rows. -/
theorem C9_every_le_one_keeps_all_witness :
    twhRun (TWHInit (some '\t') 0 none false) [['1', '\n'], ['2', '\n'], ['3', '\n']]
        = twhRunKeepAll (TWHInit (some '\t') 0 none false)
            [['1', '\n'], ['2', '\n'], ['3', '\n']]
      ∧ twhRunKeepAll (TWHInit (some '\t') 0 none false)
            [['1', '\n'], ['2', '\n'], ['3', '\n']]
          = .ok ([[.num (some 1)], [.num (some 2)], [.num (some 3)]], none) :=
  ⟨C9_every_le_one_keeps_all (some '\t') none false 0 (by decide) _, by decide⟩

/-- Inserting a row into the grouping map either leaves the key list
unchanged (existing key, bucket extended in place) or appends the new key at
the end (dict insertion order). -/
theorem groupInsert_keys (u : Bool) (m : GroupMap) (key : List Char)
    (vals : List (List Char)) :
    (groupInsert u m key vals).map Prod.fst
      = if key ∈ m.map Prod.fst then m.map Prod.fst else m.map Prod.fst ++ [key] := by
  induction m with
  | nil => simp [groupInsert]
  | cons e rest ih =>
    obtain ⟨k, vs⟩ := e
    by_cases hk : k = key
    · subst hk
      simp [groupInsert]
    · have hk2 : ¬ key = k := fun he => hk he.symm
      by_cases hmem : key ∈ rest.map Prod.fst
      · simp [groupInsert, hk, ih, hmem, hk2]
      · simp [groupInsert, hk, ih, hmem, hk2]

/-- Insertion preserves distinctness of the keys. -/
theorem groupInsert_keys_nodup (u : Bool) (m : GroupMap) (key : List Char)
    (vals : List (List Char)) (h : (m.map Prod.fst).Nodup) :
    ((groupInsert u m key vals).map Prod.fst).Nodup := by
  rw [groupInsert_keys]
  by_cases hmem : key ∈ m.map Prod.fst
  · rw [if_pos hmem]; exact h
  · rw [if_neg hmem]
    exact h.append (List.nodup_singleton key) (List.disjoint_singleton.mpr hmem)

/-- A key is in the folded grouping map exactly when it was there initially
or is the key field of some row. -/
theorem groupFold_keys_mem (u : Bool) (rows : List (List (List Char))) :
    ∀ (m : GroupMap) (k : List Char),
      k ∈ (groupFold u m rows).map Prod.fst
        ↔ k ∈ m.map Prod.fst ∨ k ∈ rows.map (fun r => r.headD []) := by
  induction rows with
  | nil =>
    intro m k
    simp [groupFold]
  | cons row rest ih =>
    intro m k
    simp only [groupFold]
    rw [ih, groupInsert_keys]
    by_cases hmem : row.headD [] ∈ m.map Prod.fst
    · rw [if_pos hmem]
      simp only [List.map_cons, List.mem_cons]
      constructor
      · rintro (h | h)
        · exact Or.inl h
        · exact Or.inr (Or.inr h)
      · rintro (h | h | h)
        · exact Or.inl h
        · subst h; exact Or.inl hmem
        · exact Or.inr h
    · rw [if_neg hmem]
      simp only [List.mem_append, List.mem_singleton, List.map_cons, List.mem_cons]
      tauto

/-- Folding rows into the grouping map keeps the key list distinct. -/
theorem groupFold_keys_nodup (u : Bool) (rows : List (List (List Char))) :
    ∀ m : GroupMap, (m.map Prod.fst).Nodup →
      ((groupFold u m rows).map Prod.fst).Nodup := by
  induction rows with
  | nil => intro m h; exact h
  | cons row rest ih =>
    intro m h
    exact ih _ (groupInsert_keys_nodup u m (row.headD []) row.tail h)

/-- On a duplicate-free list, counting an element gives 1 or 0 according to
membership. -/
theorem count_nodup_ite (l : List (List Char)) (k : List Char) (h : l.Nodup) :
    l.count k = if k ∈ l then 1 else 0 := by
  induction l with
  | nil => simp
  | cons x xs ih =>
    rcases List.nodup_cons.mp h with ⟨hx, hxs⟩
    by_cases he : k = x
    · subst he
      have hz : xs.count k = 0 := List.count_eq_zero.mpr hx
      simp [List.count_cons_self, hz]
    · simp [List.count_cons_of_ne he, ih hxs, he]

/-- Each distinct key of a file occupies exactly one entry of the grouping
map built from a fresh empty dictionary. -/
theorem groupFold_count (u : Bool) (rows : List (List (List Char))) (k : List Char) :
    ((groupFold u [] rows).map Prod.fst).count k
      = if k ∈ rows.map (fun r => r.headD []) then 1 else 0 := by
  have hnd := groupFold_keys_nodup u rows [] (by simp)
  have hmem := groupFold_keys_mem u rows [] k
  rw [count_nodup_ite _ _ hnd]
  by_cases h : k ∈ rows.map (fun r => r.headD [])
  · rw [if_pos h, if_pos (hmem.mpr (Or.inr h))]
  · rw [if_neg h, if_neg]
    intro hk
    rcases hmem.mp hk with h0 | h1
    · simp at h0
    · exact h h1

/-- When every file processes successfully, the grouping tool's output is the
concatenation of the per-file outputs, each computed by a run of
`process_file` on that file alone. -/
theorem groupby_main_flatten (opts : GroupOptions) (files : List (List (List Char)))
    (h : ∀ f ∈ files, ∃ out, process_file opts f = .ok out) :
    groupby_main opts files
      = .ok ((files.map (fun f => (process_file opts f).toOption.getD [])).flatten) := by
  induction files with
  | nil => rfl
  | cons f fs ih =>
    obtain ⟨out, hout⟩ := h f (List.mem_cons_self f fs)
    simp only [groupby_main, hout, List.map_cons, List.flatten_cons]
    rw [ih (fun g hg => h g (List.mem_cons_of_mem _ hg))]
    simp [hout, Except.toOption]

/-- C10: each input file of the grouping tool is grouped into a fresh empty
map whose rows are fully emitted before the next file is read: the total
output is the concatenation of independent per-file `process_file` runs (each
starting from the empty dictionary), the emitted lines of one file are the
entries of that file's map in first-insertion order, and a key occurring in a
file occupies exactly one entry of that file's map — so a key occurring in
several files produces one output row per file, never a merged bucket. -/
theorem C10_fresh_grouping_per_file (opts : GroupOptions)
    (files : List (List (List Char)))
    (h : ∀ f ∈ files, ∃ out, process_file opts f = .ok out) :
    (groupby_main opts files
        = .ok ((files.map (fun f => (process_file opts f).toOption.getD [])).flatten))
    ∧ (∀ f rows, groupRows opts f = .ok rows →
        process_file opts f = .ok ((groupFold opts.unique [] rows).map
          (fun e => joinWith opts.out_delimiter (e.1 :: e.2))))
    ∧ (∀ rows k, ((groupFold opts.unique [] rows).map Prod.fst).count k
        = if k ∈ rows.map (fun r => r.headD []) then 1 else 0) := by
  refine ⟨groupby_main_flatten opts files h, ?_, ?_⟩
  · intro f rows hrows
    simp [process_file, hrows]
  · intro rows k
    exact groupFold_count opts.unique rows k

/-- Witness for `C10_fresh_grouping_per_file`: grouping the files
`a 1 / a 2 / b 3` and `a 9` emits the first file's rows (`a` with both
values, then `b`) before the second file's row for `a`, whose bucket is
fresh; and the key `a` occupies exactly one entry of the first file's map. -/
theorem C10_fresh_grouping_per_file_witness :
    groupby_main defaultGroupOptions
        [[['a', '\t', '1', '\n'], ['a', '\t', '2', '\n'], ['b', '\t', '3', '\n']],
         [['a', '\t', '9', '\n']]]
      = .ok [['a', '\t', '1', '\t', '2'], ['b', '\t', '3'], ['a', '\t', '9']]
    ∧ ((groupFold defaultGroupOptions.unique []
          [[['a'], ['1']], [['a'], ['2']], [['b'], ['3']]]).map Prod.fst).count ['a']
        = 1 := by
  have hfiles : ∀ f ∈ [[['a', '\t', '1', '\n'], ['a', '\t', '2', '\n'], ['b', '\t', '3', '\n']],
      [['a', '\t', '9', '\n']]], ∃ out, process_file defaultGroupOptions f = .ok out := by
    intro f hf
    simp only [List.mem_cons, List.not_mem_nil, or_false] at hf
    rcases hf with h | h
    · subst h
      exact ⟨[['a', '\t', '1', '\t', '2'], ['b', '\t', '3']], by decide⟩
    · subst h
      exact ⟨[['a', '\t', '9']], by decide⟩
  constructor
  · rw [(C10_fresh_grouping_per_file defaultGroupOptions _ hfiles).1]
    decide
  · rw [(C10_fresh_grouping_per_file defaultGroupOptions _ hfiles).2.2]
    decide

end Swissknife
